import Mathlib

/-!
Verification development for the Florence audio pipeline
(`FlorenceEngine`): a shallow embedding of the pitch-correction stage
(`FlorenceCoder`), the segment/section connector
(`FlorenceWaveConnecter`) and the mastering/output stage
(`FlorenceOutputGenerater`), together with theorems settling the
specification claims about these stages.

Conventions of the embedding:
* audio buffers (`numpy` float arrays) are `List ℚ`; float arithmetic is
  modelled exactly over ℚ (dtype casts `float32`/`float64` are no-ops);
* a Python function that may raise an uncaught exception is modelled as
  an `Option`-returning function, `none` meaning "an exception escaped";
* Python `int(x)` (truncation toward zero) is `pyInt`, `np.round`
  (half-to-even) is `roundHalfEven`, `np.clip` is `clampQ`.
-/

namespace Florence

/-- Audio buffer: mono float PCM, modelled as a list of rationals. -/
abbrev Buf := List ℚ

/-- `np.zeros(n)`. -/
def zeros (n : ℕ) : Buf := List.replicate n 0

/-- Python `int(q)` / `numpy.astype(int)`: truncation toward zero. -/
def pyInt (q : ℚ) : ℤ := if 0 ≤ q then ⌊q⌋ else -⌊-q⌋

/-- `np.round`: round half to even (banker's rounding). -/
def roundHalfEven (q : ℚ) : ℤ :=
  if q - ⌊q⌋ = 1/2 then (if Even ⌊q⌋ then ⌊q⌋ else ⌊q⌋ + 1) else round q

/-- `np.clip(x, lo, hi)`. -/
def clampQ (x lo hi : ℚ) : ℚ := max lo (min x hi)

/-- `np.linspace(0, stop, m)[i]` (the only linspace shape the code uses
with non-unit start is `linspace(1, 0, n)` / `linspace(0, 1, n)`, modelled
separately as fade curves). For `m = 1` numpy returns `[start] = [0]`. -/
def linspace0 (stop : ℚ) (m i : ℕ) : ℚ :=
  if m = 1 then 0 else (i : ℚ) * stop / ((m : ℚ) - 1)

/-- `np.tile(l, k)`. -/
def tileList (l : List ℚ) (k : ℕ) : List ℚ := (List.replicate k l).flatten

/- ## Data model (`FlorenceEngine/Objects/data_models.py`) -/

/-- `Time`: start/end in ms. -/
structure Time where
  start : ℤ
  «end» : ℤ
deriving DecidableEq

/-- `Word`: pitch (Hz), time span, lyric, optional raw TTS buffer. -/
structure Word where
  pitch : ℚ
  time : Time
  lrc : String
  oriWave : Option Buf := none
deriving DecidableEq

/-- `Section`: word list, section start (ms), optional connected buffer. -/
structure Section where
  wordList : List Word
  sectionStart : ℤ
  sectionSrc : Option Buf := none
deriving DecidableEq

/-- `Track`: section list, optional connected track buffer. -/
structure Track where
  sectionList : List Section
  trackWaveData : Option Buf := none
deriving DecidableEq

/-- `Song`: track list, name, optional final buffer. -/
structure Song where
  trackList : List Track
  name : String
  waveData : Option Buf := none
deriving DecidableEq

/- ## Abstract WORLD vocoder capability

`FlorenceCoder` calls `pyworld` (`dio`+`stonemask`, `cheaptrick`, `d4c`,
`synthesize`) at a fixed sample rate and frame period.  The vocoder's
numerical internals are external to this repository; the embedding
abstracts each call as a function that either returns a value or raises
(`none`).  `Sp`/`Ap` are the opaque spectral-envelope and aperiodicity
payload types. -/

/-- Abstract vocoder: `dioStonemask` is the composed F0 extraction
(`pw.dio` then `pw.stonemask`), returning the per-frame F0 contour. -/
structure Vocoder (Sp Ap : Type) where
  dioStonemask : Buf → Option Buf
  cheaptrick : Buf → Buf → Option Sp
  d4c : Buf → Buf → Option Ap
  synthesize : Buf → Sp → Ap → Option Buf

/-- All four vocoder calls always succeed (raise no exception). -/
def Vocoder.Total {Sp Ap : Type} (voc : Vocoder Sp Ap) : Prop :=
  (∀ a, (voc.dioStonemask a).isSome) ∧ (∀ a f, (voc.cheaptrick a f).isSome) ∧
  (∀ a f, (voc.d4c a f).isSome) ∧ (∀ f sp ap, (voc.synthesize f sp ap).isSome)

/- ## FlorenceCoder (`FlorenceCoder/FlorenceCoder.py`) -/

/-- Length reconciliation (step 9 of `_adjust_fundamental_frequency`):
truncate to `n` if longer, right-pad with zeros if shorter. -/
def trunc_pad (syn : Buf) (n : ℕ) : Buf :=
  if n < syn.length then syn.take n else syn ++ zeros (n - syn.length)

/-- Resample index of `_fallback_processing`:
`np.clip(np.round(np.linspace(0, len-1, m)), 0, len-1)[i]`. -/
def fallback_index (len m i : ℕ) : ℕ :=
  (max 0 (min ((len : ℤ) - 1) (roundHalfEven (linspace0 ((len : ℚ) - 1) m i)))).toNat

/-- `FlorenceCoder._fallback_processing`.  `none` models an uncaught
exception.  Notes on fidelity:
* `energy = sqrt(mean(audio**2)) > 0` iff the mean of squares is `> 0`;
  for an empty buffer `np.mean` yields `nan` and `nan > 0` is false, which
  the ℚ convention `sum / 0 = 0` reproduces;
* `new_length = int(len(audio) / (target/150))`: for `target ≤ 0` the
  code raises (`ZeroDivisionError` for `target = 0`; a negative `num`
  passed to `np.linspace` for `target < 0`), hence `none`;
* `new_length = 0` makes `stretched` empty, and
  `repeats = len(audio) // len(stretched)` then raises
  `ZeroDivisionError`, hence `none`. -/
def fallback_processing (audio : Buf) (target_f0 : ℚ) : Option Buf :=
  let energySq : ℚ := (audio.map (fun x => x * x)).sum / (audio.length : ℚ)
  if 0 < energySq then
    if target_f0 ≤ 0 then none
    else
      let newLength : ℤ := pyInt ((audio.length : ℚ) * 150 / target_f0)
      if newLength ≤ 0 then none
      else
        let m := newLength.toNat
        let stretched : Buf :=
          (List.range m).map (fun i => audio.getD (fallback_index audio.length m i) 0)
        if audio.length < stretched.length then some (stretched.take audio.length)
        else some ((tileList stretched (audio.length / stretched.length + 1)).take audio.length)
  else some (zeros audio.length)

/-- The `try` block of `_adjust_fundamental_frequency` (steps 1–9):
`none` models an exception caught by the `except` clause (any failing
vocoder call). -/
def try_world {Sp Ap : Type} (voc : Vocoder Sp Ap) (audio : Buf) (target_f0 : ℚ) :
    Option Buf :=
  match voc.dioStonemask audio with
  | none => none
  | some f0 =>
    match voc.cheaptrick audio f0 with
    | none => none
    | some sp =>
      match voc.d4c audio f0 with
      | none => none
      | some ap =>
        let validF0 := f0.filter (fun x => 0 < x)
        if validF0.length = 0 then some (zeros audio.length)
        else
          let mean : ℚ := validF0.sum / (validF0.length : ℚ)
          let ratio : ℚ := target_f0 / mean
          let modF0 := f0.map (fun x => clampQ (x * ratio) 40 800)
          match voc.synthesize modF0 sp ap with
          | none => none
          | some syn => some (trunc_pad syn audio.length)

/-- `FlorenceCoder._adjust_fundamental_frequency`: the `try` body, with
any internal vocoder exception diverted to `_fallback_processing`.  The
overall result is `none` exactly when the fallback itself raises. -/
def adjust_fundamental_frequency {Sp Ap : Type} (voc : Vocoder Sp Ap)
    (audio : Buf) (target_f0 : ℚ) : Option Buf :=
  match try_world voc audio target_f0 with
  | some r => some r
  | none => fallback_processing audio target_f0

/-- The per-word loop of `FlorenceCoder._process_section`: words with a
present, non-empty `oriWave` are pitch-adjusted and collected in order. -/
def collect_segments {Sp Ap : Type} (voc : Vocoder Sp Ap) :
    List Word → Option (List Buf)
  | [] => some []
  | w :: ws =>
    match w.oriWave with
    | some a =>
      if 0 < a.length then
        match adjust_fundamental_frequency voc a w.pitch with
        | none => none
        | some seg =>
          match collect_segments voc ws with
          | none => none
          | some rest => some (seg :: rest)
      else collect_segments voc ws
    | none => collect_segments voc ws

/-- `FlorenceCoder._connect_segments`: concatenation with a
`int(0.01 * sample_rate)`-sample silence inserted before each segment
after the first. -/
def connect_segments (sample_rate : ℕ) (segments : List Buf) : Buf :=
  match segments with
  | [] => []
  | [s] => s
  | s :: rest => s ++ rest.foldl (fun acc seg => acc ++ zeros (sample_rate / 100) ++ seg) []

/-- `FlorenceCoder._process_section`: adjust every audible word, then (if
any segment was produced) write the connected section buffer. -/
def process_section {Sp Ap : Type} (voc : Vocoder Sp Ap) (sample_rate : ℕ)
    (sec : Section) : Option Section :=
  match collect_segments voc sec.wordList with
  | none => none
  | some segs =>
    if segs.isEmpty then some sec
    else some { sec with sectionSrc := some (connect_segments sample_rate segs) }

/-- The section loop of `FlorenceCoder.process_song` over one track. -/
def process_sections {Sp Ap : Type} (voc : Vocoder Sp Ap) (sample_rate : ℕ) :
    List Section → Option (List Section)
  | [] => some []
  | s :: rest =>
    match process_section voc sample_rate s with
    | none => none
    | some s2 =>
      match process_sections voc sample_rate rest with
      | none => none
      | some r2 => some (s2 :: r2)

/-- The track loop of `FlorenceCoder.process_song`. -/
def process_tracks {Sp Ap : Type} (voc : Vocoder Sp Ap) (sample_rate : ℕ) :
    List Track → Option (List Track)
  | [] => some []
  | t :: rest =>
    match process_sections voc sample_rate t.sectionList with
    | none => none
    | some secs =>
      match process_tracks voc sample_rate rest with
      | none => none
      | some r2 => some ({ t with sectionList := secs } :: r2)

/-- `FlorenceCoder.process_song`: pitch-correct every section of every
track and return the song.  There is no validation of `Word.pitch`
anywhere on this path. -/
def process_song {Sp Ap : Type} (voc : Vocoder Sp Ap) (sample_rate : ℕ)
    (song : Song) : Option Song :=
  match process_tracks voc sample_rate song.trackList with
  | none => none
  | some ts => some { song with trackList := ts }

/- ## FlorenceWaveConnecter (`FlorenceWaveConnecter/FlorenceWaveConnecter.py`) -/

/-- `np.linspace(1, 0, n)[i]`, the linear fade-out curve (for `n = 1`
numpy returns the start value `[1]`). -/
def fade_out (n i : ℕ) : ℚ :=
  if n = 1 then 1 else 1 - (i : ℚ) / ((n : ℚ) - 1)

/-- `np.linspace(0, 1, n)[i]`, the linear fade-in curve (for `n = 1`
numpy returns the start value `[0]`). -/
def fade_in (n i : ℕ) : ℚ :=
  if n = 1 then 0 else (i : ℚ) / ((n : ℚ) - 1)

/-- The overlap-sample count of `_crossfade_connect`:
`min(int(overlap_duration * sample_rate), len(audio1), len(audio2))`. -/
def overlap_count (sample_rate : ℕ) (overlap_duration : ℚ) (la lb : ℕ) : ℤ :=
  min (pyInt (overlap_duration * (sample_rate : ℚ))) (min (la : ℤ) (lb : ℤ))

/-- `FlorenceWaveConnecter._crossfade_connect`.  When the overlap count
is non-positive the two buffers are concatenated; otherwise the result is
`audio1` without its tail, the faded overlap region, and `audio2` without
its head.  (The Python signature also takes an `overlap_ratio` argument
that the body never reads; it is omitted here.  The `window` built from
`_create_fade_window` is likewise never used.) -/
def crossfade_connect (sample_rate : ℕ) (audio1 audio2 : Buf)
    (overlap_duration : ℚ) : Buf :=
  let ov := overlap_count sample_rate overlap_duration audio1.length audio2.length
  if ov ≤ 0 then audio1 ++ audio2
  else
    let n := ov.toNat
    audio1.take (audio1.length - n) ++
    (List.range n).map (fun i =>
      audio1.getD (audio1.length - n + i) 0 * fade_out n i +
      audio2.getD i 0 * fade_in n i) ++
    audio2.drop n

/-- The accumulation loop of `_connect_track_sections`: `connected_audio`
starts as `None`; a section with `sectionSrc = None` is skipped; the
first present buffer is taken as-is and each further one is joined by
`_crossfade_connect` with `overlap_duration = window_size`. -/
def connect_sections_loop (sample_rate : ℕ) (window_size : ℚ) :
    Option Buf → List (Option Buf) → Option Buf
  | acc, [] => acc
  | acc, none :: rest => connect_sections_loop sample_rate window_size acc rest
  | none, some s :: rest => connect_sections_loop sample_rate window_size (some s) rest
  | some c, some s :: rest =>
    connect_sections_loop sample_rate window_size
      (some (crossfade_connect sample_rate c s window_size)) rest

/-- `FlorenceWaveConnecter._connect_track_sections`, as a function from
the sections' `sectionSrc` buffers to the track's `trackWaveData`.  (For
an empty section list the Python returns early without assigning
`trackWaveData`, which in the pipeline leaves it at its default `None`;
that matches the loop's `none` result on `[]`.) -/
def connect_track_sections (sample_rate : ℕ) (window_size : ℚ)
    (sections : List (Option Buf)) : Option Buf :=
  connect_sections_loop sample_rate window_size none sections

/-- Spec-side definition (§4.2 `connectSections`): the strict
left-to-right fold of the crossfade join over the present buffers in
original order, `none` when every section is skipped.  Compared against
`connect_track_sections` in the claim about this routine. -/
def connect_sections_fold_spec (sample_rate : ℕ) (window_size : ℚ)
    (sections : List (Option Buf)) : Option Buf :=
  match sections.filterMap id with
  | [] => none
  | x :: xs =>
    some (xs.foldl (fun acc s => crossfade_connect sample_rate acc s window_size) x)

/- ## FlorenceOutputGenerater (`FlorenceOutputGenerater/FlorenceOutputGenerater.py`) -/

/-- The `max_length` scan of `_merge_tracks`: the greatest
`trackWaveData` length over tracks that have one (`0` when none do). -/
def max_track_length (tracks : List (Option Buf)) : ℕ :=
  tracks.foldl (fun m t => match t with | some b => max m b.length | none => m) 0

/-- `final_audio[:len(b)] += b`: element-wise addition of a track buffer
into the accumulator (indices beyond `b` unchanged). -/
def add_track (acc b : Buf) : Buf :=
  (List.range acc.length).map (fun i => acc.getD i 0 + b.getD i 0)

/-- `FlorenceOutputGenerater._merge_tracks`, as a function from the
tracks' `trackWaveData` buffers to the mixed buffer: an all-zero buffer
of the maximal track length, accumulating every present, non-empty track
buffer aligned at sample 0.  (The early `[]` returns for an empty track
list and for `max_length == 0` both coincide with the `maxLen = 0`
case.) -/
def merge_tracks (tracks : List (Option Buf)) : Buf :=
  let maxLen := max_track_length tracks
  if maxLen = 0 then []
  else
    tracks.foldl (fun acc t =>
      match t with
      | some b => if 0 < b.length then add_track acc b else acc
      | none => acc) (zeros maxLen)

/-- `np.sign`. -/
def npSign (x : ℚ) : ℚ := if x < 0 then -1 else if x = 0 then 0 else 1

/-- The per-sample soft limiter of `_prevent_clipping`
(`threshold = 0.95`, `ratio = 20`): samples with `|s| > threshold` become
`sign(s) * (threshold + (|s| - threshold) / ratio)`. -/
def prevent_clipping_sample (s : ℚ) : ℚ :=
  if 95/100 < |s| then npSign s * (95/100 + (|s| - 95/100) / 20) else s

/-- `FlorenceOutputGenerater._prevent_clipping` (the masked update is a
per-sample map). -/
def prevent_clipping (audio : Buf) : Buf := audio.map prevent_clipping_sample

/-- `FlorenceOutputGenerater._normalize_audio` (`target_rms = 0.1`,
`max_gain = 4.0`), over ℝ because the RMS takes a square root. -/
noncomputable def normalize_audio (audio : List ℝ) : List ℝ :=
  if audio.length = 0 then audio
  else
    let rms := Real.sqrt ((audio.map (fun x => x ^ 2)).sum / (audio.length : ℝ))
    if 0 < rms then audio.map (fun x => x * min ((1/10) / rms) 4)
    else audio

/-- Wrap an integer into the `int16` range, as numpy's
`astype(np.int16)` does after truncation (`%` on ℤ is the nonnegative
Euclidean remainder). -/
def int16wrap (n : ℤ) : ℤ := (n + 32768) % 65536 - 32768

/-- The per-sample quantization of `_save_wav_file`:
`np.clip(s, -1, 1)`, then `* 32767`, then `astype(np.int16)` (truncation
toward zero, wrapped into the `int16` range). -/
def quantize_sample (s : ℚ) : ℤ := int16wrap (pyInt (clampQ s (-1) 1 * 32767))

/-- The quantization stage of `FlorenceOutputGenerater._save_wav_file`
(the emitted little-endian PCM frames, as their integer sample values). -/
def save_wav_quantize (audio : Buf) : List ℤ := audio.map quantize_sample

/- ## Concrete instances used by witnesses and counterexamples -/

/-- A total vocoder whose analysis always finds one voiced 100 Hz frame
and whose synthesis always emits the single sample `5`. -/
def voc0 : Vocoder Unit Unit :=
  { dioStonemask := fun _ => some [100]
    cheaptrick := fun _ _ => some ()
    d4c := fun _ _ => some ()
    synthesize := fun _ _ _ => some [5] }

/-- Like `voc0` but synthesizing the sample `9`: used to show that the
synthesized output (hence the vocoder call) reaches the section buffer. -/
def voc1 : Vocoder Unit Unit :=
  { dioStonemask := fun _ => some [100]
    cheaptrick := fun _ _ => some ()
    d4c := fun _ _ => some ()
    synthesize := fun _ _ _ => some [9] }

/-- Modelled from the spec: the external F0 analysis (WORLD `dio` /
`stonemask`, not part of this repository) detects no voiced frames on a
silent buffer, i.e. returns an all-zero F0 contour. -/
def vocSilent : Vocoder Unit Unit :=
  { dioStonemask := fun a => some (List.replicate a.length 0)
    cheaptrick := fun _ _ => some ()
    d4c := fun _ _ => some ()
    synthesize := fun _ _ _ => some [] }

/-- A vocoder whose F0 extraction raises, driving
`_adjust_fundamental_frequency` onto the fallback path. -/
def vocFail : Vocoder Unit Unit :=
  { dioStonemask := fun _ => none
    cheaptrick := fun _ _ => some ()
    d4c := fun _ _ => some ()
    synthesize := fun _ _ _ => some [] }

/-- A `Word` with non-positive target pitch and a present raw buffer. -/
def word0 : Word := { pitch := 0, time := ⟨0, 1⟩, lrc := "la", oriWave := some [1, 2] }

/-- A one-track, one-section, one-word song whose only word has
`pitch = 0`. -/
def song0 : Song :=
  { trackList := [{ sectionList := [{ wordList := [word0], sectionStart := 0 }] }]
    name := "s" }

/-- `song0` after `process_song` under `voc0`: the pitch-0 word was
vocoder-processed into the section buffer `[5, 0]`. -/
def song0out5 : Song :=
  { trackList := [{ sectionList :=
      [{ wordList := [word0], sectionStart := 0, sectionSrc := some [5, 0] }] }]
    name := "s" }

/-- `song0` after `process_song` under `voc1` (synthesis output `[9]`). -/
def song0out9 : Song :=
  { trackList := [{ sectionList :=
      [{ wordList := [word0], sectionStart := 0, sectionSrc := some [9, 0] }] }]
    name := "s" }

/- ## Helper lemmas -/

theorem pyInt_of_nonneg {q : ℚ} (h : 0 ≤ q) : pyInt q = ⌊q⌋ := by
  simp [pyInt, h]

theorem pyInt_nonpos_iff {q : ℚ} : pyInt q ≤ 0 ↔ q < 1 := by
  unfold pyInt
  split
  · rw [Int.floor_le_iff]; norm_num
  · rename_i h
    push_neg at h
    constructor
    · intro _; linarith
    · intro _
      simp only [neg_nonpos, Int.le_floor]
      push_cast
      linarith

theorem pyInt_pos_eq_floor {q : ℚ} (h : 0 < ⌊q⌋) : pyInt q = ⌊q⌋ := by
  have h1 : (1 : ℚ) ≤ q := by
    have := Int.le_floor.mp h
    push_cast at this
    linarith [Int.floor_le q, this]
  exact pyInt_of_nonneg (by linarith)

theorem pyInt_le_self_of_nonneg {q : ℚ} (h : 0 ≤ q) : (pyInt q : ℚ) ≤ q := by
  rw [pyInt_of_nonneg h]; exact Int.floor_le q

theorem abs_sub_pyInt_lt (q : ℚ) : |q - (pyInt q : ℚ)| < 1 := by
  unfold pyInt
  split
  · rw [abs_of_nonneg (by linarith [Int.floor_le q])]
    linarith [Int.sub_one_lt_floor q]
  · push_cast
    rw [abs_of_nonpos (by linarith [Int.floor_le (-q)])]
    linarith [Int.sub_one_lt_floor (-q)]

theorem abs_pyInt_le (q : ℚ) : |(pyInt q : ℚ)| ≤ |q| := by
  unfold pyInt
  split
  · rename_i h
    rw [abs_of_nonneg (by exact_mod_cast Int.floor_nonneg.mpr h),
      abs_of_nonneg h]
    exact Int.floor_le q
  · rename_i h
    push_neg at h
    push_cast
    rw [abs_of_nonpos (by simp; exact_mod_cast Int.floor_nonneg.mpr (by linarith)),
      abs_of_neg h]
    simp only [neg_neg, neg_le_neg_iff]
    exact Int.floor_le (-q)

@[simp] theorem length_zeros (n : ℕ) : (zeros n).length = n := by
  simp [zeros]

theorem getD_zeros (n i : ℕ) : (zeros n).getD i 0 = 0 := by
  simp only [zeros, List.getD_eq_getElem?_getD, List.getElem?_replicate]
  split <;> simp

@[simp] theorem length_trunc_pad (syn : Buf) (n : ℕ) : (trunc_pad syn n).length = n := by
  unfold trunc_pad
  split <;> rename_i h
  · simp [List.length_take]; omega
  · simp; omega

@[simp] theorem length_tileList (l : List ℚ) (k : ℕ) :
    (tileList l k).length = k * l.length := by
  induction k with
  | zero => simp [tileList]
  | succ k ih =>
    simp only [tileList, List.replicate_succ, List.flatten_cons, List.length_append]
    simp only [tileList] at ih
    rw [ih]; ring

/-- Every buffer the fallback path returns has the input's length. -/
theorem fallback_processing_length {audio : Buf} {t : ℚ} {r : Buf}
    (h : fallback_processing audio t = some r) : r.length = audio.length := by
  simp only [fallback_processing] at h
  split_ifs at h with h1 h2 h3 h4
  · simp only [Option.some.injEq] at h
    subst h
    simp only [List.length_take, List.length_map, List.length_range] at h4 ⊢
    omega
  · simp only [Option.some.injEq] at h
    subst h
    push_neg at h4
    simp only [List.length_take, length_tileList, List.length_map,
      List.length_range] at h4 ⊢
    set m := (pyInt ((audio.length : ℚ) * 150 / t)).toNat with hm2
    have hm1 : 0 < m := by omega
    have : audio.length < (audio.length / m + 1) * m :=
      (Nat.div_lt_iff_lt_mul hm1).mp (Nat.lt_succ_self _)
    omega
  · simp only [Option.some.injEq] at h
    subst h
    simp

/-- Every buffer the vocoder `try` path returns has the input's length. -/
theorem try_world_length {Sp Ap : Type} {voc : Vocoder Sp Ap} {audio : Buf} {t : ℚ}
    {r : Buf} (h : try_world voc audio t = some r) : r.length = audio.length := by
  simp only [try_world] at h
  split at h
  · exact absurd h (by simp)
  · split at h
    · exact absurd h (by simp)
    · split at h
      · exact absurd h (by simp)
      · split_ifs at h with h0
        · simp only [Option.some.injEq] at h
          subst h
          simp
        · split at h
          · exact absurd h (by simp)
          · simp only [Option.some.injEq] at h
            subst h
            simp

/- ## Claim C2 -/

/-- C2 (code bug): the fallback path is not total.  For the non-empty
buffer `[1.0]` and target 300 Hz (`> 0`), `new_length = int(1/2) = 0`
makes `stretched` empty and `repeats = len(audio) // 0` raises a
`ZeroDivisionError`; when the vocoder has failed (here: F0 extraction
raises), that exception escapes `_adjust_fundamental_frequency` too, so
an exception does cross the pitch-correction boundary. -/
theorem fallback_processing_not_total :
    fallback_processing [1] 300 = none ∧
    adjust_fundamental_frequency vocFail [1] 300 = none := by
  constructor
  · norm_num [fallback_processing, pyInt]
  · norm_num [adjust_fundamental_frequency, try_world, vocFail,
      fallback_processing, pyInt]

/- ## Claim C3 -/

/-- C3: whenever pitch correction returns a buffer, that buffer has
exactly the input's sample count — on the successful vocoder path
(truncate-or-pad), on the no-voiced-frames silence path, and on the
fallback resample path alike. -/
theorem adjust_fundamental_frequency_length {Sp Ap : Type} (voc : Vocoder Sp Ap)
    (audio : Buf) (target_f0 : ℚ) (r : Buf)
    (h : adjust_fundamental_frequency voc audio target_f0 = some r) :
    r.length = audio.length := by
  unfold adjust_fundamental_frequency at h
  split at h
  · rename_i r0 h0
    simp only [Option.some.injEq] at h
    subst h
    exact try_world_length h0
  · exact fallback_processing_length h

/-- Witness for C3 at a concrete input: `voc0` on `[1, 2]` at 100 Hz
returns `[5, 0]`, whose length equals the input's. -/
theorem adjust_fundamental_frequency_length_witness :
    adjust_fundamental_frequency voc0 [1, 2] 100 = some [5, 0] ∧
    ([5, 0] : Buf).length = ([1, 2] : Buf).length := by
  have h : adjust_fundamental_frequency voc0 [1, 2] 100 = some [5, 0] := by
    norm_num [adjust_fundamental_frequency, try_world, voc0, clampQ,
      trunc_pad, zeros, List.filter]
  exact ⟨h, adjust_fundamental_frequency_length voc0 [1, 2] 100 [5, 0] h⟩

/- ## Claim C4 -/

/-- C4: when pitch analysis succeeds and detects no voiced frames (every
per-frame F0 value is zero), pitch correction returns an all-zero buffer
of exactly the input's length. -/
theorem adjust_fundamental_frequency_unvoiced_silence {Sp Ap : Type}
    (voc : Vocoder Sp Ap) (audio : Buf) (target_f0 : ℚ)
    (f0 : Buf) (sp : Sp) (ap : Ap)
    (h1 : voc.dioStonemask audio = some f0) (h2 : voc.cheaptrick audio f0 = some sp)
    (h3 : voc.d4c audio f0 = some ap) (h0 : ∀ x ∈ f0, x = 0) :
    adjust_fundamental_frequency voc audio target_f0 = some (zeros audio.length) := by
  have hf : f0.filter (fun x => 0 < x) = [] := by
    rw [List.filter_eq_nil_iff]
    intro a ha
    simp [h0 a ha]
  simp only [adjust_fundamental_frequency, try_world, h1, h2, h3, hf]
  simp

/-- Witness for C4 at a concrete input: under the spec-modelled silent
analysis (`vocSilent`), correcting the zero buffer `zeros 5` at any
target (here 220 Hz) yields the length-5 zero buffer. -/
theorem adjust_fundamental_frequency_unvoiced_silence_witness :
    adjust_fundamental_frequency vocSilent (zeros 5) 220 = some (zeros 5) := by
  have h := adjust_fundamental_frequency_unvoiced_silence vocSilent (zeros 5) 220
    (List.replicate 5 0) () () rfl rfl rfl (by simp)
  simpa using h

/- ## Claim C1 -/

theorem try_world_isSome {Sp Ap : Type} {voc : Vocoder Sp Ap} (h : voc.Total)
    (audio : Buf) (t : ℚ) : ∃ r, try_world voc audio t = some r := by
  obtain ⟨f0, h1⟩ := Option.isSome_iff_exists.mp (h.1 audio)
  obtain ⟨sp, h2⟩ := Option.isSome_iff_exists.mp (h.2.1 audio f0)
  obtain ⟨ap, h3⟩ := Option.isSome_iff_exists.mp (h.2.2.1 audio f0)
  obtain ⟨syn, h4⟩ := Option.isSome_iff_exists.mp
    (h.2.2.2 (f0.map (fun x => clampQ (x * (t / ((f0.filter (fun x => 0 < x)).sum /
      ((f0.filter (fun x => 0 < x)).length : ℚ)))) 40 800)) sp ap)
  simp only [try_world, h1, h2, h3]
  split_ifs with hz
  · exact ⟨_, rfl⟩
  · rw [h4]
    exact ⟨_, rfl⟩

theorem adjust_isSome {Sp Ap : Type} {voc : Vocoder Sp Ap} (h : voc.Total)
    (audio : Buf) (t : ℚ) : ∃ r, adjust_fundamental_frequency voc audio t = some r := by
  obtain ⟨r, hr⟩ := try_world_isSome h audio t
  exact ⟨r, by simp [adjust_fundamental_frequency, hr]⟩

theorem collect_segments_isSome {Sp Ap : Type} {voc : Vocoder Sp Ap} (h : voc.Total)
    (ws : List Word) : ∃ segs, collect_segments voc ws = some segs := by
  induction ws with
  | nil => exact ⟨[], rfl⟩
  | cons w ws ih =>
    obtain ⟨rest, hrest⟩ := ih
    cases hw : w.oriWave with
    | none => exact ⟨rest, by simp [collect_segments, hw, hrest]⟩
    | some a =>
      by_cases ha : 0 < a.length
      · obtain ⟨seg, hseg⟩ := adjust_isSome h a w.pitch
        exact ⟨seg :: rest, by simp [collect_segments, hw, ha, hseg, hrest]⟩
      · exact ⟨rest, by simp [collect_segments, hw, ha, hrest]⟩

theorem process_section_isSome {Sp Ap : Type} {voc : Vocoder Sp Ap} (h : voc.Total)
    (sr : ℕ) (sec : Section) : ∃ s2, process_section voc sr sec = some s2 := by
  obtain ⟨segs, hsegs⟩ := collect_segments_isSome h sec.wordList
  by_cases he : segs.isEmpty
  · exact ⟨sec, by simp [process_section, hsegs, he]⟩
  · exact ⟨{ sec with sectionSrc := some (connect_segments sr segs) },
      by simp [process_section, hsegs, he]⟩

theorem process_sections_isSome {Sp Ap : Type} {voc : Vocoder Sp Ap} (h : voc.Total)
    (sr : ℕ) (secs : List Section) :
    ∃ out, process_sections voc sr secs = some out := by
  induction secs with
  | nil => exact ⟨[], rfl⟩
  | cons s rest ih =>
    obtain ⟨out, hout⟩ := ih
    obtain ⟨s2, hs2⟩ := process_section_isSome h sr s
    exact ⟨s2 :: out, by simp [process_sections, hs2, hout]⟩

theorem process_tracks_isSome {Sp Ap : Type} {voc : Vocoder Sp Ap} (h : voc.Total)
    (sr : ℕ) (ts : List Track) : ∃ out, process_tracks voc sr ts = some out := by
  induction ts with
  | nil => exact ⟨[], rfl⟩
  | cons t rest ih =>
    obtain ⟨out, hout⟩ := ih
    obtain ⟨secs, hsecs⟩ := process_sections_isSome h sr t.sectionList
    exact ⟨{ t with sectionList := secs } :: out, by simp [process_tracks, hsecs, hout]⟩

/-- C1 counterexample: `song0` contains a Word with `targetPitchHz = 0`,
yet `process_song` raises nothing and runs the vocoder on the Word's
buffer: under `voc0` it completes with section buffer `[5, 0]`, and
under `voc1` (whose synthesis differs) with `[9, 0]` — the buffer was
vocoder-processed, not rejected before analysis. -/
theorem process_song_nonpositive_pitch_processed :
    process_song voc0 22050 song0 = some song0out5 ∧
    process_song voc1 22050 song0 = some song0out9 := by
  constructor <;>
    norm_num [process_song, process_tracks, process_sections, process_section,
      collect_segments, adjust_fundamental_frequency, try_world, voc0, voc1,
      word0, song0, song0out5, song0out9, trunc_pad, zeros, clampQ,
      connect_segments, List.filter]

/-- C1 (amended): `FlorenceCoder.process_song` performs no validation of
target pitch and defines no StructuralViolation: for every Song —
including any whose Words have `targetPitchHz <= 0` — whenever the
vocoder calls themselves succeed, the stage completes normally, silently
processing every Word (a non-positive pitch merely yields a scaled F0
contour that is clamped into the 40–800 Hz range). -/
theorem process_song_no_pitch_validation {Sp Ap : Type} (voc : Vocoder Sp Ap)
    (h : voc.Total) (sr : ℕ) (song : Song) :
    ∃ s, process_song voc sr song = some s := by
  obtain ⟨out, hout⟩ := process_tracks_isSome h sr song.trackList
  exact ⟨{ song with trackList := out }, by simp [process_song, hout]⟩

/-- Witness for C1's amended theorem: the total vocoder `voc0` and the
pitch-0 song `song0`. -/
theorem process_song_no_pitch_validation_witness :
    ∃ s, process_song voc0 22050 song0 = some s :=
  process_song_no_pitch_validation voc0
    ⟨fun _ => rfl, fun _ _ => rfl, fun _ _ => rfl, fun _ _ _ => rfl⟩ 22050 song0

/- ## Claims C5 and C9 -/

/-- The claim-side overlap count: `min(floor(overlapSeconds * sampleRate),
len(a), len(b))` with a true floor (the code truncates toward zero, which
coincides on the branch that matters). -/
def overlap_spec (sr : ℕ) (dur : ℚ) (la lb : ℕ) : ℤ :=
  min ⌊dur * (sr : ℚ)⌋ (min (la : ℤ) (lb : ℤ))

theorem fade_sum (n i : ℕ) : fade_out n i + fade_in n i = 1 := by
  simp only [fade_out, fade_in]
  split <;> ring

theorem overlap_spec_nonpos_iff {sr : ℕ} {dur : ℚ} {la lb : ℕ} :
    overlap_spec sr dur la lb ≤ 0 ↔ overlap_count sr dur la lb ≤ 0 := by
  simp only [overlap_spec, overlap_count, min_le_iff]
  have h1 : ⌊dur * (sr : ℚ)⌋ ≤ 0 ↔ dur * (sr : ℚ) < 1 := by
    rw [Int.floor_le_iff]; norm_num
  rw [h1, ← pyInt_nonpos_iff]

theorem overlap_count_eq_spec_of_pos {sr : ℕ} {dur : ℚ} {la lb : ℕ}
    (h : 0 < overlap_spec sr dur la lb) :
    overlap_count sr dur la lb = overlap_spec sr dur la lb := by
  have hf : 0 < ⌊dur * (sr : ℚ)⌋ := lt_of_lt_of_le h (min_le_left _ _)
  simp only [overlap_count, overlap_spec, pyInt_pos_eq_floor hf]

theorem overlap_count_le_left (sr : ℕ) (dur : ℚ) (la lb : ℕ) :
    overlap_count sr dur la lb ≤ (la : ℤ) :=
  (min_le_right _ _).trans (min_le_left _ _)

theorem overlap_count_le_right (sr : ℕ) (dur : ℚ) (la lb : ℕ) :
    overlap_count sr dur la lb ≤ (lb : ℤ) :=
  (min_le_right _ _).trans (min_le_right _ _)

theorem getD_append_left {l1 l2 : List ℚ} {i : ℕ} (h : i < l1.length) (d : ℚ) :
    (l1 ++ l2).getD i d = l1.getD i d := by
  simp [List.getD_eq_getElem?_getD, List.getElem?_append, h]

theorem getD_append_right2 {l1 l2 : List ℚ} {i : ℕ} (h : l1.length ≤ i) (d : ℚ) :
    (l1 ++ l2).getD i d = l2.getD (i - l1.length) d := by
  simp [List.getD_eq_getElem?_getD, List.getElem?_append_right h]

theorem getD_map_range {f : ℕ → ℚ} {n i : ℕ} (h : i < n) (d : ℚ) :
    ((List.range n).map f).getD i d = f i := by
  simp [List.getD_eq_getElem?_getD, List.getElem?_map, List.getElem?_range h]

/-- In the crossfading branch, the output length is
`len(a) + len(b) - overlapSamples`. -/
theorem crossfade_connect_pos_length {sr : ℕ} {dur : ℚ} (a b : Buf)
    (h : 0 < overlap_count sr dur a.length b.length) :
    (crossfade_connect sr a b dur).length =
      a.length + b.length - (overlap_count sr dur a.length b.length).toNat := by
  have hla : (overlap_count sr dur a.length b.length).toNat ≤ a.length :=
    Int.toNat_le.mpr (overlap_count_le_left ..)
  have hlb : (overlap_count sr dur a.length b.length).toNat ≤ b.length :=
    Int.toNat_le.mpr (overlap_count_le_right ..)
  simp only [crossfade_connect, if_neg (not_le.mpr h), List.length_append,
    List.length_take, List.length_map, List.length_range, List.length_drop]
  omega

/-- In the crossfading branch, sample `len(a) - n + i` of the output
(for `i < n`, `n` the overlap count) is the faded sum of the `i`-th of
the last `n` samples of `a` and the `i`-th of the first `n` samples of
`b`. -/
theorem crossfade_connect_pos_getD {sr : ℕ} {dur : ℚ} (a b : Buf)
    (h : 0 < overlap_count sr dur a.length b.length) {i : ℕ}
    (hi : i < (overlap_count sr dur a.length b.length).toNat) :
    (crossfade_connect sr a b dur).getD
      (a.length - (overlap_count sr dur a.length b.length).toNat + i) 0 =
    a.getD (a.length - (overlap_count sr dur a.length b.length).toNat + i) 0 *
      fade_out (overlap_count sr dur a.length b.length).toNat i +
    b.getD i 0 * fade_in (overlap_count sr dur a.length b.length).toNat i := by
  set n := (overlap_count sr dur a.length b.length).toNat with hn
  have hla : n ≤ a.length := Int.toNat_le.mpr (overlap_count_le_left ..)
  have hlb : n ≤ b.length := Int.toNat_le.mpr (overlap_count_le_right ..)
  simp only [crossfade_connect, if_neg (not_le.mpr h), ← hn]
  have hl1 : (a.take (a.length - n)).length = a.length - n := by
    simp [List.length_take]
  have hl12 : (a.take (a.length - n) ++
      (List.range n).map (fun i =>
        a.getD (a.length - n + i) 0 * fade_out n i +
        b.getD i 0 * fade_in n i)).length = a.length := by
    simp only [List.length_append, hl1, List.length_map, List.length_range]
    omega
  rw [getD_append_left (by omega : a.length - n + i <
    (a.take (a.length - n) ++ (List.range n).map (fun i =>
      a.getD (a.length - n + i) 0 * fade_out n i + b.getD i 0 * fade_in n i)).length)]
  rw [getD_append_right2 (by omega : (a.take (a.length - n)).length ≤ a.length - n + i)]
  have hidx : a.length - n + i - (a.take (a.length - n)).length = i := by
    rw [hl1]; omega
  rw [hidx, getD_map_range hi]

/-- C5: `crossfadeJoin` computes
`overlapSamples = min(floor(overlapSeconds * sampleRate), len(a), len(b))`;
if `overlapSamples <= 0` the result is plain concatenation `a ++ b`, and
otherwise the result has length `len(a) + len(b) - overlapSamples` with
the overlap region equal to the sample-wise sum of the last
`overlapSamples` of `a` under the linear fade-out and the first
`overlapSamples` of `b` under the linear fade-in. -/
theorem crossfade_connect_spec (sr : ℕ) (dur : ℚ) (a b : Buf) :
    (overlap_spec sr dur a.length b.length ≤ 0 →
      crossfade_connect sr a b dur = a ++ b) ∧
    (0 < overlap_spec sr dur a.length b.length →
      (crossfade_connect sr a b dur).length =
        a.length + b.length - (overlap_spec sr dur a.length b.length).toNat ∧
      ∀ i < (overlap_spec sr dur a.length b.length).toNat,
        (crossfade_connect sr a b dur).getD
          (a.length - (overlap_spec sr dur a.length b.length).toNat + i) 0 =
        a.getD (a.length - (overlap_spec sr dur a.length b.length).toNat + i) 0 *
          fade_out (overlap_spec sr dur a.length b.length).toNat i +
        b.getD i 0 * fade_in (overlap_spec sr dur a.length b.length).toNat i) := by
  constructor
  · intro h
    have hc := overlap_spec_nonpos_iff.mp h
    simp only [crossfade_connect, if_pos hc]
  · intro h
    have hc := overlap_count_eq_spec_of_pos h
    have hpos : 0 < overlap_count sr dur a.length b.length := hc ▸ h
    refine ⟨?_, ?_⟩
    · rw [← hc]
      exact crossfade_connect_pos_length a b hpos
    · intro i hi
      rw [← hc] at hi ⊢
      exact crossfade_connect_pos_getD a b hpos hi

/-- Witness for C5 at concrete inputs: a zero-overlap join concatenates,
and a 2-sample overlap join of `[1,1,1,1]` and `[2,2,2,2]` at 10 Hz with
0.2 s overlap has length 6 with overlap sample 1 equal to
`1 * fadeOut + 2 * fadeIn = 2`. -/
theorem crossfade_connect_spec_witness :
    crossfade_connect 10 [1, 2] [3, 4] 0 = [1, 2, 3, 4] ∧
    (crossfade_connect 10 [1, 1, 1, 1] [2, 2, 2, 2] (1/5)).length = 6 ∧
    (crossfade_connect 10 [1, 1, 1, 1] [2, 2, 2, 2] (1/5)).getD 3 0 = 2 := by
  have hov : overlap_spec 10 (1/5) ([(1:ℚ), 1, 1, 1]).length ([(2:ℚ), 2, 2, 2]).length = 2 := by
    norm_num [overlap_spec]
  have hov2 : (overlap_spec 10 (1/5) ([(1:ℚ), 1, 1, 1]).length
      ([(2:ℚ), 2, 2, 2]).length).toNat = 2 := by rw [hov]; rfl
  have h := crossfade_connect_spec 10 (1/5) [1, 1, 1, 1] [2, 2, 2, 2]
  obtain ⟨hlen, hmid⟩ := h.2 (by rw [hov]; norm_num)
  have h0 := (crossfade_connect_spec 10 0 [1, 2] [3, 4]).1 (by norm_num [overlap_spec])
  refine ⟨by simpa using h0, ?_, ?_⟩
  · rw [hlen, hov2]
    norm_num
  · have hm := hmid 1 (by rw [hov2]; norm_num)
    rw [hov2] at hm
    norm_num [fade_out, fade_in] at hm
    simpa using hm

/-- C9: for constant equal-amplitude non-zero signals, the midpoint
sample of the crossfade overlap region equals the common amplitude `v`,
because the linear fade-out and fade-in coefficients sum to one. -/
theorem crossfade_midpoint_unity (sr la lb : ℕ) (dur v : ℚ) (hv : v ≠ 0)
    (h : 0 < overlap_count sr dur la lb) :
    (crossfade_connect sr (List.replicate la v) (List.replicate lb v) dur).getD
      (la - (overlap_count sr dur la lb).toNat +
        (overlap_count sr dur la lb).toNat / 2) 0 = v := by
  have hlen1 : (List.replicate la v).length = la := List.length_replicate ..
  have hlen2 : (List.replicate lb v).length = lb := List.length_replicate ..
  set n := (overlap_count sr dur la lb).toNat with hn
  have hnpos : 0 < n := by
    simp only [hn]
    omega
  have hla : n ≤ la := by
    simp only [hn]
    exact Int.toNat_le.mpr (overlap_count_le_left ..)
  have hlb : n ≤ lb := by
    simp only [hn]
    exact Int.toNat_le.mpr (overlap_count_le_right ..)
  have hhalf : n / 2 < n := Nat.div_lt_self hnpos (by norm_num)
  have h2 : 0 < overlap_count sr dur (List.replicate la v).length
      (List.replicate lb v).length := by rw [hlen1, hlen2]; exact h
  have hgd := crossfade_connect_pos_getD (List.replicate la v) (List.replicate lb v)
    h2 (i := n / 2) (by rw [hlen1, hlen2, ← hn]; exact hhalf)
  rw [hlen1, hlen2, ← hn] at hgd
  rw [hgd]
  have hidxa : la - n + n / 2 < la := by omega
  have hidxb : n / 2 < lb := by omega
  have hga : (List.replicate la v).getD (la - n + n / 2) 0 = v := by
    rw [List.getD_eq_getElem?_getD, List.getElem?_replicate, if_pos hidxa]
    rfl
  have hgb : (List.replicate lb v).getD (n / 2) 0 = v := by
    rw [List.getD_eq_getElem?_getD, List.getElem?_replicate, if_pos hidxb]
    rfl
  rw [hga, hgb]
  calc v * fade_out n (n / 2) + v * fade_in n (n / 2)
      = v * (fade_out n (n / 2) + fade_in n (n / 2)) := by ring
    _ = v * 1 := by rw [fade_sum]
    _ = v := mul_one v

/-- Witness for C9 at a concrete input: amplitude 3, both buffers of
length 4, overlap 2, midpoint index `4 - 2 + 1 = 3`. -/
theorem crossfade_midpoint_unity_witness :
    (0 : ℤ) < overlap_count 10 (1/5) 4 4 ∧
    (crossfade_connect 10 (List.replicate 4 (3:ℚ)) (List.replicate 4 (3:ℚ)) (1/5)).getD
      (4 - (overlap_count 10 (1/5) 4 4).toNat +
        (overlap_count 10 (1/5) 4 4).toNat / 2) 0 = 3 := by
  have hov : overlap_count 10 (1/5) 4 4 = 2 := by
    norm_num [overlap_count, pyInt]
  exact ⟨by rw [hov]; norm_num,
    crossfade_midpoint_unity 10 4 4 (1/5) 3 (by norm_num) (by rw [hov]; norm_num)⟩

/- ## Claim C6 -/

theorem connect_sections_loop_some (sr : ℕ) (ws : ℚ) (rest : List (Option Buf))
    (c : Buf) :
    connect_sections_loop sr ws (some c) rest =
    some ((rest.filterMap id).foldl
      (fun acc s => crossfade_connect sr acc s ws) c) := by
  induction rest generalizing c with
  | nil => simp [connect_sections_loop]
  | cons o rest ih =>
    cases o with
    | none => simp [connect_sections_loop, ih]
    | some s => simp [connect_sections_loop, ih]

/-- C6: connecting a track's sections is the strict left-to-right fold of
the crossfade join over the sections' connected buffers in original list
order, skipping every section whose buffer is absent; when every section
is skipped the track's buffer is absent (`none`). -/
theorem connect_track_sections_eq_fold (sr : ℕ) (ws : ℚ)
    (sections : List (Option Buf)) :
    connect_track_sections sr ws sections =
    connect_sections_fold_spec sr ws sections := by
  induction sections with
  | nil => rfl
  | cons o rest ih =>
    cases o with
    | none =>
      simpa [connect_track_sections, connect_sections_loop,
        connect_sections_fold_spec] using ih
    | some s =>
      simp [connect_track_sections, connect_sections_loop,
        connect_sections_fold_spec, connect_sections_loop_some]

/- ## Claim C7 -/

theorem length_add_track (acc b : Buf) : (add_track acc b).length = acc.length := by
  simp [add_track]

theorem getD_add_track {acc : Buf} (b : Buf) {i : ℕ} (h : i < acc.length) :
    (add_track acc b).getD i 0 = acc.getD i 0 + b.getD i 0 := by
  simp only [add_track]
  exact getD_map_range h 0

theorem getD_add_track_all (acc b : Buf) (i : ℕ) (hb : b.length ≤ acc.length) :
    (add_track acc b).getD i 0 = acc.getD i 0 + b.getD i 0 := by
  by_cases h : i < acc.length
  · exact getD_add_track b h
  · push_neg at h
    rw [List.getD_eq_default _ _ (by simpa [length_add_track] using h),
      List.getD_eq_default _ _ h, List.getD_eq_default _ _ (by omega)]
    norm_num

/-- Every present track buffer is no longer than the `max_length` scan's
result. -/
theorem le_max_track_length {tracks : List (Option Buf)} {b : Buf}
    (hb : some b ∈ tracks) : b.length ≤ max_track_length tracks := by
  have haux : ∀ (l : List (Option Buf)) (m : ℕ),
      m ≤ l.foldl (fun m t => match t with | some b => max m b.length | none => m) m := by
    intro l
    induction l with
    | nil => intro m; simp
    | cons o rest ih =>
      intro m
      cases o with
      | none => simpa using ih m
      | some c => exact le_trans (le_max_left m c.length) (ih (max m c.length))
  unfold max_track_length
  generalize 0 = m0
  induction tracks generalizing m0 with
  | nil => cases hb
  | cons o rest ih =>
    rcases List.mem_cons.mp hb with h | h
    · subst h
      exact le_trans (le_max_right m0 b.length) (haux rest _)
    · cases o with
      | none => simpa using ih h m0
      | some c => simpa using ih h (max m0 c.length)

theorem merge_fold_length (tracks : List (Option Buf)) (acc : Buf) :
    (tracks.foldl (fun acc t =>
      match t with
      | some b => if 0 < b.length then add_track acc b else acc
      | none => acc) acc).length = acc.length := by
  induction tracks generalizing acc with
  | nil => rfl
  | cons o rest ih =>
    cases o with
    | none => simpa using ih acc
    | some b =>
      by_cases hb : 0 < b.length <;>
        simp [hb, ih, length_add_track]

theorem merge_fold_getD (tracks : List (Option Buf)) (acc : Buf) (i : ℕ)
    (hall : ∀ b : Buf, some b ∈ tracks → b.length ≤ acc.length) :
    (tracks.foldl (fun acc t =>
      match t with
      | some b => if 0 < b.length then add_track acc b else acc
      | none => acc) acc).getD i 0 =
    acc.getD i 0 + (tracks.map (fun t => (t.getD []).getD i 0)).sum := by
  induction tracks generalizing acc with
  | nil => simp
  | cons o rest ih =>
    cases o with
    | none =>
      simp only [List.foldl_cons, List.map_cons, List.sum_cons, Option.getD_none,
        List.getD_nil]
      rw [ih acc (fun c hc => hall c (List.mem_cons_of_mem _ hc))]
      ring
    | some b =>
      have hb : b.length ≤ acc.length := hall b (List.mem_cons_self _ _)
      simp only [List.foldl_cons, List.map_cons, List.sum_cons, Option.getD_some]
      by_cases hbl : 0 < b.length
      · rw [if_pos hbl,
          ih (add_track acc b) (fun c hc => by
            rw [length_add_track]
            exact hall c (List.mem_cons_of_mem _ hc)),
          getD_add_track_all acc b i hb]
        ring
      · rw [if_neg hbl,
          ih acc (fun c hc => hall c (List.mem_cons_of_mem _ hc)),
          List.getD_eq_default _ _ (by omega : b.length ≤ i)]
        ring

/-- C7: mixing produces a buffer whose length is the maximum length over
tracks that have a buffer (`0`, i.e. empty, when none does), and whose
sample at every index is the sum over all tracks of that track's sample
there — tracks aligned at sample 0, absent tracks contributing nothing,
and shorter tracks implicitly zero beyond their end. -/
theorem merge_tracks_spec (tracks : List (Option Buf)) :
    (merge_tracks tracks).length =
      ((tracks.filterMap id).map List.length).foldl max 0 ∧
    ∀ i : ℕ, (merge_tracks tracks).getD i 0 =
      (tracks.map (fun t => (t.getD []).getD i 0)).sum := by
  have hmax : max_track_length tracks =
      ((tracks.filterMap id).map List.length).foldl max 0 := by
    unfold max_track_length
    generalize 0 = m0
    induction tracks generalizing m0 with
    | nil => rfl
    | cons o rest ih =>
      cases o with
      | none => simpa using ih m0
      | some b => simpa using ih (max m0 b.length)
  constructor
  · simp only [merge_tracks]
    split_ifs with h0
    · simp [← hmax, h0]
    · rw [← hmax]
      simpa using merge_fold_length tracks (zeros (max_track_length tracks))
  · intro i
    simp only [merge_tracks]
    split_ifs with h0
    · have hz : ∀ b : Buf, some b ∈ tracks → b = [] := by
        intro b hb
        have := le_max_track_length hb
        rw [h0] at this
        exact List.length_eq_zero.mp (by omega)
      have h00 : List.getD ([] : Buf) i 0 = 0 := rfl
      rw [h00, eq_comm]
      apply List.sum_eq_zero
      intro x hx
      obtain ⟨t, ht, rfl⟩ := List.mem_map.mp hx
      cases t with
      | none => simp
      | some b => simp [hz b ht]
    · rw [merge_fold_getD tracks (zeros (max_track_length tracks)) i
        (fun b hb => by simpa using le_max_track_length hb)]
      rw [getD_zeros]
      ring

/-- Witness for C7 at a concrete input (the second conjunct's index
quantifier instantiated at `i = 0`): tracks `[1,2,3]`, absent, `[10]`
mix to a length-3 buffer whose first sample is `1 + 0 + 10 = 11`. -/
theorem merge_tracks_spec_witness :
    (merge_tracks [some [1, 2, 3], none, some [10]]).length = 3 ∧
    (merge_tracks [some [1, 2, 3], none, some [10]]).getD 0 0 = 11 := by
  have h := merge_tracks_spec [some [1, 2, 3], none, some [10]]
  refine ⟨?_, ?_⟩
  · rw [h.1]
    norm_num [List.filterMap_cons]
  · rw [h.2 0]
    norm_num

/- ## Claim C8 -/

theorem int16wrap_eq_self {n : ℤ} (h1 : -32768 ≤ n) (h2 : n ≤ 32767) :
    int16wrap n = n := by
  unfold int16wrap
  rw [Int.emod_eq_of_lt (by omega) (by omega)]
  omega

theorem clampQ_unit_bounds (s : ℚ) : -1 ≤ clampQ s (-1) 1 ∧ clampQ s (-1) 1 ≤ 1 := by
  unfold clampQ
  constructor
  · exact le_max_left _ _
  · exact max_le (by norm_num) (min_le_right _ _)

theorem abs_clampQ_mul_le (s : ℚ) : |clampQ s (-1) 1 * 32767| ≤ 32767 := by
  obtain ⟨h1, h2⟩ := clampQ_unit_bounds s
  rw [abs_mul]
  have : |clampQ s (-1) 1| ≤ 1 := abs_le.mpr ⟨h1, h2⟩
  calc |clampQ s (-1) 1| * |(32767 : ℚ)| ≤ 1 * |(32767 : ℚ)| := by
        apply mul_le_mul_of_nonneg_right this (abs_nonneg _)
    _ = 32767 := by norm_num

theorem quantize_sample_bounds (s : ℚ) :
    -32767 ≤ quantize_sample s ∧ quantize_sample s ≤ 32767 := by
  have habs : |(pyInt (clampQ s (-1) 1 * 32767) : ℚ)| ≤ 32767 :=
    le_trans (abs_pyInt_le _) (abs_clampQ_mul_le s)
  have hb : -32767 ≤ pyInt (clampQ s (-1) 1 * 32767) ∧
      pyInt (clampQ s (-1) 1 * 32767) ≤ 32767 := by
    rw [abs_le] at habs
    exact ⟨by exact_mod_cast habs.1, by exact_mod_cast habs.2⟩
  unfold quantize_sample
  rw [int16wrap_eq_self (by omega) (by omega)]
  exact hb

/-- C8 counterexample: at the in-range sample `0.7` the emitted integer
is `22936` (truncation of `22936.9`), whereas rounding as the claim
states would give `22937`. -/
theorem save_wav_quantize_not_round :
    save_wav_quantize [7/10] = [22936] ∧ round ((7:ℚ)/10 * 32767) = 22937 ∧
    ([22936] : List ℤ) ≠ [22937] := by
  refine ⟨?_, ?_, by decide⟩
  · norm_num [save_wav_quantize, quantize_sample, int16wrap, pyInt, clampQ]
  · norm_num [round_eq]

/-- C8 (amended): quantization hard-clips to `[-1, 1]` and maps each
clipped sample `s` to the signed 16-bit integer `trunc(s * 32767)`
(truncation toward zero, not rounding), serialized as little-endian mono
PCM; de-quantizing still reproduces the clipped input within one
quantization step (at most `1/32767` absolute error) for values inside
`[-1, 1]`. -/
theorem quantize_sample_trunc_roundtrip (x : ℚ) (h1 : -1 ≤ x) (h2 : x ≤ 1) :
    quantize_sample x = pyInt (x * 32767) ∧
    |x - (quantize_sample x : ℚ) / 32767| ≤ 1/32767 := by
  have hcl : clampQ x (-1) 1 = x := by
    unfold clampQ
    rw [min_eq_left h2, max_eq_right h1]
  have habs : |(pyInt (x * 32767) : ℚ)| ≤ 32767 := by
    have := abs_clampQ_mul_le x
    rw [hcl] at this
    exact le_trans (abs_pyInt_le _) this
  have heq : quantize_sample x = pyInt (x * 32767) := by
    unfold quantize_sample
    rw [hcl]
    rw [abs_le] at habs
    have hb1 : -(32767 : ℤ) ≤ pyInt (x * 32767) := by exact_mod_cast habs.1
    have hb2 : pyInt (x * 32767) ≤ 32767 := by exact_mod_cast habs.2
    exact int16wrap_eq_self (by omega) (by omega)
  refine ⟨heq, ?_⟩
  rw [heq]
  have herr : |x * 32767 - (pyInt (x * 32767) : ℚ)| < 1 := abs_sub_pyInt_lt _
  have hrw : x - (pyInt (x * 32767) : ℚ) / 32767 =
      (x * 32767 - (pyInt (x * 32767) : ℚ)) / 32767 := by ring
  rw [hrw, abs_div]
  rw [abs_of_pos (by norm_num : (0:ℚ) < 32767)]
  rw [div_le_div_iff (by norm_num) (by norm_num)]
  nlinarith [abs_nonneg (x * 32767 - (pyInt (x * 32767) : ℚ))]

/-- Witness for C8's amended theorem at the concrete in-range sample
`0.7`. -/
theorem quantize_sample_trunc_roundtrip_witness :
    quantize_sample (7/10) = pyInt ((7:ℚ)/10 * 32767) ∧
    |(7:ℚ)/10 - (quantize_sample (7/10) : ℚ) / 32767| ≤ 1/32767 :=
  quantize_sample_trunc_roundtrip (7/10) (by norm_num) (by norm_num)

/- ## Claim C10 -/

/-- C10: every 16-bit sample the output stage emits lies within
`[-32767, 32767]` (no wraparound), guaranteed solely by the hard clip
immediately before integer conversion: the soft limiter's output is
unbounded in magnitude, and RMS normalization can scale samples above
`1.0`. -/
theorem save_wav_quantize_range_sole_guarantee :
    (∀ (audio : Buf) (i : ℕ),
      -32767 ≤ (save_wav_quantize audio).getD i 0 ∧
      (save_wav_quantize audio).getD i 0 ≤ 32767) ∧
    (∀ M : ℚ, ∃ s : ℚ, M < |prevent_clipping_sample s|) ∧
    (∃ (audio : List ℝ) (i : ℕ), 1 < (normalize_audio audio).getD i 0) := by
  refine ⟨?_, ?_, ?_⟩
  · intro audio i
    rw [save_wav_quantize, List.getD_eq_getElem?_getD, List.getElem?_map]
    cases haudio : audio[i]? with
    | none => norm_num
    | some a => simpa using quantize_sample_bounds a
  · intro M
    refine ⟨20 * |M| + 20, ?_⟩
    have hM : 0 ≤ |M| := abs_nonneg M
    have hs : (0:ℚ) < 20 * |M| + 20 := by linarith
    have habs : |20 * |M| + 20| = 20 * |M| + 20 := abs_of_pos hs
    have hgt : (95/100 : ℚ) < |20 * |M| + 20| := by rw [habs]; linarith
    have hsign : npSign (20 * |M| + 20) = 1 := by
      unfold npSign
      rw [if_neg (not_lt.mpr hs.le), if_neg (by linarith)]
    simp only [prevent_clipping_sample]
    rw [if_pos hgt, hsign, habs, one_mul]
    rw [abs_of_pos (by linarith)]
    linarith [le_abs_self M]
  · refine ⟨(1:ℝ) :: List.replicate 120 0, 0, ?_⟩
    have hlen : (((1:ℝ) :: List.replicate 120 0)).length = 121 := by simp
    have hsum : ((((1:ℝ) :: List.replicate 120 0)).map (fun x => x ^ 2)).sum = 1 := by
      simp
    have hrt : Real.sqrt (1 / (121 : ℝ)) = 1 / 11 := by
      rw [show (1:ℝ)/121 = (1/11)^2 by norm_num,
        Real.sqrt_sq (by norm_num : (0:ℝ) ≤ 1/11)]
    simp only [normalize_audio, hlen, hsum]
    norm_num [hrt]

end Florence
